import Mathlib

/-
Verification of the output-normalization and column-naming contract of the
tsgettoolbox repository (the Column Namer and Time-Series Normalizer of
spec.md sections 3, 4.1 and 4.2, together with the recorded CLI output shape
of the repository's notebook and README examples).

The repository's Python implementation of the core is not shipped with the
sources available here (only documentation, the README examples and the
notebook with recorded outputs are), so the core is modelled from the
specification, with the rendered-output conventions (the '-' column-name
delimiter and the "Datetime" index header) taken from the outputs recorded
in src/notebooks/tsgettoolbox-nwis-api.ipynb and the README examples.

Conventions of the embedding:
* timestamps are an abstract chronological encoding: a natural number plus
  an optional UTC-offset tag (none = timezone-naive, some z = aware);
* raw cell values are optional strings (none = missing in the source data);
* coerced numeric cells are explicit decimal values (mantissa, scale),
  i.e. the value mantissa / 10 ^ scale, which keeps every computation
  kernel-executable; a missing cell is Option.none, never a sentinel.
-/

namespace Tsget

/-- Chronological timestamp: an absolute time encoding plus an optional
timezone offset tag; tz = none models a timezone-naive timestamp, tz = some z
a timezone-aware one. -/
structure Timestamp where
  time : Nat
  tz : Option Int
deriving DecidableEq, Repr

/-- Injective integer code of the timezone tag, used to totally order
timestamps: naive maps to 0, aware with offset z maps to the odd 2 z + 1. -/
def tzCode : Option Int → Int
  | none => 0
  | some z => 2 * z + 1

/-- Strict chronological order on timestamps: by time, ties broken by the
timezone code so that the order is total. -/
def tsLt (a b : Timestamp) : Bool :=
  decide (a.time < b.time ∨ (a.time = b.time ∧ tzCode a.tz < tzCode b.tz))

/-- Reflexive chronological order on timestamps. -/
def tsLe (a b : Timestamp) : Bool :=
  tsLt a b || decide (a = b)

theorem tzCode_inj {a b : Option Int} (h : tzCode a = tzCode b) : a = b := by
  cases a <;> cases b <;> simp [tzCode] at h ⊢ <;> omega

theorem tsLt_irrefl (a : Timestamp) : tsLt a a = false := by
  simp [tsLt]

theorem tsLt_trans {a b c : Timestamp} (hab : tsLt a b = true)
    (hbc : tsLt b c = true) : tsLt a c = true := by
  simp only [tsLt, decide_eq_true_eq] at hab hbc ⊢
  omega

theorem tsLt_asymm {a b : Timestamp} (hab : tsLt a b = true) :
    tsLt b a = false := by
  simp only [tsLt, decide_eq_true_eq] at hab
  simp only [tsLt, decide_eq_false_iff_not, not_or, not_and, not_lt]
  omega

theorem tsLt_trichotomy (a b : Timestamp) :
    tsLt a b = true ∨ a = b ∨ tsLt b a = true := by
  by_cases hab : tsLt a b = true
  · exact Or.inl hab
  · by_cases hba : tsLt b a = true
    · exact Or.inr (Or.inr hba)
    · refine Or.inr (Or.inl ?_)
      simp only [tsLt, decide_eq_true_eq, not_or, not_and, not_lt] at hab hba
      have htime : a.time = b.time := by omega
      have htz : tzCode a.tz = tzCode b.tz := by
        rcases hab with ⟨h1, h2⟩
        rcases hba with ⟨h3, h4⟩
        have := h2 htime
        have := h4 htime.symm
        omega
      cases a
      cases b
      simp only [Timestamp.mk.injEq]
      exact ⟨htime, tzCode_inj htz⟩

/-- Ascending insertion into a strictly sorted deduplicated list of
timestamps; an element already present is not duplicated. -/
def insertT (x : Timestamp) : List Timestamp → List Timestamp
  | [] => [x]
  | y :: ys => if x = y then y :: ys else if tsLt x y then x :: y :: ys else y :: insertT x ys

/-- Union of a list of timestamps as a strictly ascending deduplicated list:
step 2 of the Normalizer algorithm (sort ascending, deduplicate). -/
def buildIndex (l : List Timestamp) : List Timestamp :=
  l.foldr insertT []

/-- Strictly ascending (hence duplicate-free) predicate on timestamp lists. -/
def SortedT (l : List Timestamp) : Prop :=
  l.Pairwise (fun a b => tsLt a b = true)

theorem mem_insertT {a x : Timestamp} {l : List Timestamp} :
    a ∈ insertT x l ↔ a = x ∨ a ∈ l := by
  induction l with
  | nil => simp [insertT]
  | cons y ys ih =>
    by_cases hxy : x = y
    · subst hxy
      have hred : insertT x (x :: ys) = x :: ys := by simp [insertT]
      rw [hred, List.mem_cons]
      tauto
    · by_cases hlt : tsLt x y = true
      · simp only [insertT, if_neg hxy, if_pos hlt, List.mem_cons]
      · simp only [insertT, if_neg hxy, if_neg hlt, List.mem_cons, ih]
        tauto

theorem sortedT_insertT {x : Timestamp} {l : List Timestamp}
    (h : SortedT l) : SortedT (insertT x l) := by
  induction l with
  | nil => simp [insertT, SortedT]
  | cons y ys ih =>
    rcases List.pairwise_cons.mp h with ⟨hy, hys⟩
    by_cases hxy : x = y
    · subst hxy
      simpa [insertT] using h
    · by_cases hlt : tsLt x y = true
      · simp only [insertT, if_neg hxy, if_pos hlt]
        refine List.pairwise_cons.mpr ⟨?_, h⟩
        intro b hb
        rcases List.mem_cons.mp hb with hb | hb
        · exact hb ▸ hlt
        · exact tsLt_trans hlt (hy b hb)
      · have hyx : tsLt y x = true := by
          rcases tsLt_trichotomy x y with h1 | h1 | h1
          · exact absurd h1 hlt
          · exact absurd h1 hxy
          · exact h1
        simp only [insertT, if_neg hxy, if_neg hlt]
        refine List.pairwise_cons.mpr ⟨?_, ih hys⟩
        intro b hb
        rcases mem_insertT.mp hb with hb | hb
        · exact hb ▸ hyx
        · exact hy b hb

theorem mem_buildIndex {a : Timestamp} {l : List Timestamp} :
    a ∈ buildIndex l ↔ a ∈ l := by
  induction l with
  | nil => simp [buildIndex]
  | cons x xs ih =>
    simp only [buildIndex, List.foldr_cons] at ih ⊢
    rw [mem_insertT, ih, List.mem_cons]

theorem sortedT_buildIndex (l : List Timestamp) : SortedT (buildIndex l) := by
  induction l with
  | nil => simp [buildIndex, SortedT]
  | cons x xs ih =>
    simpa only [buildIndex, List.foldr_cons] using sortedT_insertT ih

/-- A strictly sorted list of timestamps is determined by its member set. -/
theorem sortedT_ext {l₁ l₂ : List Timestamp} (h₁ : SortedT l₁)
    (h₂ : SortedT l₂) (hmem : ∀ a, a ∈ l₁ ↔ a ∈ l₂) : l₁ = l₂ := by
  induction l₁ generalizing l₂ with
  | nil =>
    cases l₂ with
    | nil => rfl
    | cons b bs => exact absurd ((hmem b).mpr (List.mem_cons_self b bs)) (by simp)
  | cons a as ih =>
    cases l₂ with
    | nil => exact absurd ((hmem a).mp (List.mem_cons_self a as)) (by simp)
    | cons b bs =>
      rcases List.pairwise_cons.mp h₁ with ⟨ha, has⟩
      rcases List.pairwise_cons.mp h₂ with ⟨hb, hbs⟩
      have hab : a = b := by
        rcases List.mem_cons.mp ((hmem a).mp (List.mem_cons_self a as)) with h | h
        · exact h
        · rcases List.mem_cons.mp ((hmem b).mpr (List.mem_cons_self b bs)) with h' | h'
          · exact h'.symm
          · have h1 := hb a h
            have h2 := ha b h'
            exact absurd h1 (by simp [tsLt_asymm h2])
      subst hab
      have htails : ∀ x, x ∈ as ↔ x ∈ bs := by
        intro x
        constructor
        · intro hx
          rcases List.mem_cons.mp ((hmem x).mp (List.mem_cons.mpr (Or.inr hx))) with h | h
          · exact absurd (ha x hx) (by simp [h, tsLt_irrefl])
          · exact h
        · intro hx
          rcases List.mem_cons.mp ((hmem x).mpr (List.mem_cons.mpr (Or.inr hx))) with h | h
          · exact absurd (hb x hx) (by simp [h, tsLt_irrefl])
          · exact h
      rw [ih has hbs htails]

/-- Deriving the sorted deduplicated union a second time from a list that is
already strictly sorted and deduplicated reproduces that list. -/
theorem buildIndex_idem {l : List Timestamp} (h : SortedT l) :
    buildIndex l = l :=
  sortedT_ext (sortedT_buildIndex l) h (fun _ => mem_buildIndex)

theorem buildIndex_perm {l₁ l₂ : List Timestamp} (h : l₁.Perm l₂) :
    buildIndex l₁ = buildIndex l₂ :=
  sortedT_ext (sortedT_buildIndex l₁) (sortedT_buildIndex l₂)
    (fun a => by rw [mem_buildIndex, mem_buildIndex]; exact h.mem_iff)

theorem sortedT_nodup {l : List Timestamp} (h : SortedT l) : l.Nodup := by
  induction l with
  | nil => simp
  | cons a as ih =>
    rcases List.pairwise_cons.mp h with ⟨ha, has⟩
    refine List.nodup_cons.mpr ⟨?_, ih has⟩
    intro hmem
    exact absurd (ha a hmem) (by simp [tsLt_irrefl])

/-- Decimal digit character of a digit value below ten. -/
def digitChar : Nat → Char
  | 0 => '0'
  | 1 => '1'
  | 2 => '2'
  | 3 => '3'
  | 4 => '4'
  | 5 => '5'
  | 6 => '6'
  | 7 => '7'
  | 8 => '8'
  | _ => '9'

/-- Numeric value of a decimal digit character. -/
def charVal (c : Char) : Nat :=
  c.toNat - 48

/-- Value of a decimal digit string, most significant digit first. -/
def valOf (l : List Char) : Nat :=
  l.foldl (fun a c => 10 * a + charVal c) 0

/-- Fuel-bounded decimal rendering of a natural number (the fuel bounds the
digit count so the recursion is structural and kernel-executable). -/
def decStrAux : Nat → Nat → List Char
  | 0, _ => []
  | fuel + 1, n => if n < 10 then [digitChar n] else decStrAux fuel (n / 10) ++ [digitChar (n % 10)]

/-- Decimal rendering of a natural number, used for collision suffixes. -/
def decStr (n : Nat) : String :=
  String.mk (decStrAux (n + 1) n)

theorem charVal_digitChar {d : Nat} (h : d < 10) :
    charVal (digitChar d) = d := by
  interval_cases d <;> decide

theorem valOf_append (l : List Char) (c : Char) :
    valOf (l ++ [c]) = 10 * valOf l + charVal c := by
  simp [valOf, List.foldl_append]

theorem valOf_decStrAux {fuel n : Nat} (h : n < 10 ^ fuel) :
    valOf (decStrAux fuel n) = n := by
  induction fuel generalizing n with
  | zero =>
    have : n = 0 := by simpa using h
    subst this
    decide
  | succ fuel ih =>
    by_cases hn : n < 10
    · simp only [decStrAux, if_pos hn, valOf, List.foldl_cons, List.foldl_nil]
      rw [charVal_digitChar hn]
      omega
    · have hdiv : n / 10 < 10 ^ fuel := by
        rw [Nat.div_lt_iff_lt_mul (by norm_num)]
        calc n < 10 ^ (fuel + 1) := h
        _ = 10 ^ fuel * 10 := by rw [pow_succ]
      simp only [decStrAux, if_neg hn]
      rw [valOf_append, ih hdiv, charVal_digitChar (Nat.mod_lt n (by norm_num))]
      omega

theorem valOf_decStr (n : Nat) : valOf (decStr n).data = n := by
  have hlt : n < 10 ^ (n + 1) := by
    calc n < 10 ^ n := Nat.lt_pow_self (by norm_num) n
    _ ≤ 10 ^ (n + 1) := Nat.pow_le_pow_right (by norm_num) (Nat.le_succ n)
  simpa [decStr] using valOf_decStrAux hlt

theorem decStr_inj {a b : Nat} (h : decStr a = decStr b) : a = b := by
  have hdata : (decStr a).data = (decStr b).data := by rw [h]
  have := valOf_decStr a
  rw [hdata, valOf_decStr b] at this
  exact this.symm

/-- Explicit decimal numeric value: the rational mantissa / 10 ^ scale,
kept in this structural form so that every computation on cells is
kernel-executable. -/
structure DecValue where
  mantissa : Int
  scale : Nat
deriving DecidableEq, Repr

/-- Character-level membership test on strings (the string contains the
character). -/
def strHas (s : String) (c : Char) : Bool :=
  s.data.any (fun a => decide (a = c))

/-- Parse a non-empty all-digit character list as a natural number. -/
def parseNatList (l : List Char) : Option Nat :=
  if l.isEmpty then none
  else if l.all Char.isDigit then some (valOf l) else none

/-- Split a character list at its first decimal point, when present. -/
def splitDot : List Char → List Char × Option (List Char)
  | [] => ([], none)
  | c :: r =>
    if c = '.' then ([], some r)
    else
      let p := splitDot r
      (c :: p.1, p.2)

/-- Parse a raw cell string as a signed decimal number; any string that is
not an optional minus sign followed by digits with at most one decimal point
fails to parse (for example "N/A"). -/
def parseDec (s : String) : Option DecValue :=
  let p : Bool × List Char :=
    match s.data with
    | '-' :: r => (true, r)
    | l => (false, l)
  let sgn : Int := if p.1 then -1 else 1
  match splitDot p.2 with
  | (ip, none) => (parseNatList ip).map (fun n => ⟨sgn * n, 0⟩)
  | (ip, some fp) =>
    match parseNatList ip, parseNatList fp with
    | some i, some f => some ⟨sgn * ((i : Int) * (10 : Int) ^ fp.length + (f : Int)), fp.length⟩
    | _, _ => none

/-- Modelled from the spec: Variable Key of section 3 — the composite
column identifier. The field source holds what the spec calls the source
prefix (agency code), for example "USGS" or "NOS". -/
structure VariableKey where
  source : String
  site_id : String
  variable_code : String
  statistic_code : Option String
deriving DecidableEq, Repr

/-- Modelled from the spec: a Series (section 3) — chronologically ordered
observations for one Variable Key; a cell value of none is a value missing
in the source data, and a present value is the raw text reported by the
Source Adapter. -/
structure Series where
  key : VariableKey
  obs : List (Timestamp × Option String)
deriving DecidableEq, Repr

/-- Timestamps carried by a Series, in their supplied order. -/
def Series.timestamps (s : Series) : List Timestamp :=
  s.obs.map Prod.fst

deriving instance DecidableEq for Except

/-- Errors of the error taxonomy of spec section 7. -/
inductive NormError where
  | malformedIdentifier (key : VariableKey)
  | duplicateTimestamp (key : VariableKey) (t : Timestamp)
  | inconsistentTimezone
  | valueCoercion (row : Nat) (col : String)
deriving DecidableEq, Repr

/-- Ordered parts of a Variable Key, empty parts dropped: source prefix,
site id, variable code, then the statistic code when present. -/
def keyParts (k : VariableKey) : List String :=
  ([k.source, k.site_id, k.variable_code] ++ k.statistic_code.toList).filter
    (fun p => !p.isEmpty)

/-- Modelled from the spec: the Column Namer's reserved delimiter check —
true when some part of the key contains the delimiter character. The
delimiter is the hyphen, as recorded by the repository's notebook and README
outputs (for example USGS-02325000-00060 and NOS-8720219-water_level-m). -/
def keyBad (k : VariableKey) : Bool :=
  (keyParts k).any (fun p => strHas p '-')

/-- Join of the non-empty key parts with the fixed hyphen delimiter. -/
def renderParts (k : VariableKey) : String :=
  String.intercalate "-" (keyParts k)

/-- Modelled from the spec: the Column Namer (section 4.1) — joins the
non-empty parts of a Variable Key with the fixed delimiter in the fixed
order, and fails with MalformedIdentifier when any part contains the
reserved delimiter. -/
def renderName (k : VariableKey) : Except NormError String :=
  if keyBad k then .error (.malformedIdentifier k) else .ok (renderParts k)

/-- Candidate disambiguated name: the base name, an underscore, then a
decimal suffix. -/
def cand (base : String) (j : Nat) : String :=
  base ++ "_" ++ decStr j

/-- Fuel-bounded search for the first candidate suffix whose name is not in
use; the fuel is chosen so the search always finds a free name. -/
def freshAux (used : List String) (base : String) : Nat → Nat → String
  | 0, k => cand base k
  | fuel + 1, k => if cand base k ∈ used then freshAux used base fuel (k + 1) else cand base k

/-- First numeric-suffixed variant of base not in use. -/
def fresh (used : List String) (base : String) : String :=
  freshAux used base (used.length + 1) 1

/-- Modelled from the spec: column-name disambiguation (section 4.2 step 4)
— names are processed in the order the Series were supplied; a name already
in use is replaced by its first free numeric-suffixed variant and counted as
one non-fatal collision diagnostic. Returns the final names and the
collision count. -/
def disambiguate (used : List String) : List String → List String × Nat
  | [] => ([], 0)
  | b :: bs =>
    let n := if b ∈ used then fresh used b else b
    let c : Nat := if b ∈ used then 1 else 0
    let r := disambiguate (n :: used) bs
    (n :: r.1, c + r.2)

theorem cand_inj {base : String} {i j : Nat} (h : cand base i = cand base j) :
    i = j := by
  apply decStr_inj
  apply String.ext
  have hdata : (base ++ "_" ++ decStr i).data = (base ++ "_" ++ decStr j).data := by
    rw [show base ++ "_" ++ decStr i = cand base i from rfl,
      show base ++ "_" ++ decStr j = cand base j from rfl, h]
  rw [String.data_append, String.data_append] at hdata
  exact List.append_cancel_left hdata

/-- Pigeonhole: an injective family of more candidate names than there are
used names has a member outside the used names. -/
theorem exists_fresh_index (used : List String) (f : Nat → String)
    (hinj : Function.Injective f) :
    ∃ j, j < used.length + 1 ∧ f j ∉ used := by
  by_contra hcon
  push_neg at hcon
  have hsub : ((List.range (used.length + 1)).map f).toFinset ⊆ used.toFinset := by
    intro x hx
    rw [List.mem_toFinset] at hx
    rcases List.mem_map.mp hx with ⟨j, hj, rfl⟩
    exact List.mem_toFinset.mpr (hcon j (List.mem_range.mp hj))
  have hnd : ((List.range (used.length + 1)).map f).Nodup :=
    (List.nodup_range _).map hinj
  have hcard : ((List.range (used.length + 1)).map f).toFinset.card = used.length + 1 := by
    rw [List.toFinset_card_of_nodup hnd, List.length_map, List.length_range]
  have hle : ((List.range (used.length + 1)).map f).toFinset.card ≤ used.length :=
    le_trans (Finset.card_le_card hsub) (List.toFinset_card_le used)
  omega

theorem freshAux_not_mem {used : List String} {base : String} :
    ∀ {fuel k : Nat}, (∃ j, k ≤ j ∧ j < k + fuel ∧ cand base j ∉ used) →
      freshAux used base fuel k ∉ used := by
  intro fuel
  induction fuel with
  | zero =>
    intro k h
    rcases h with ⟨j, h1, h2, _⟩
    omega
  | succ fuel ih =>
    intro k h
    by_cases hmem : cand base k ∈ used
    · simp only [freshAux, if_pos hmem]
      apply ih
      rcases h with ⟨j, h1, h2, h3⟩
      refine ⟨j, ?_, by omega, h3⟩
      rcases Nat.eq_or_lt_of_le h1 with h4 | h4
      · exact absurd (h4 ▸ h3) (by simpa using hmem)
      · omega
    · simpa only [freshAux, if_neg hmem] using hmem

theorem fresh_not_mem (used : List String) (base : String) :
    fresh used base ∉ used := by
  apply freshAux_not_mem
  have hinj : Function.Injective (fun i => cand base (i + 1)) := by
    intro a b hab
    have := cand_inj hab
    omega
  rcases exists_fresh_index used (fun i => cand base (i + 1)) hinj with ⟨j, hj, hfree⟩
  exact ⟨j + 1, by omega, by omega, hfree⟩

theorem disambiguate_length (used bs : List String) :
    (disambiguate used bs).1.length = bs.length := by
  induction bs generalizing used with
  | nil => simp [disambiguate]
  | cons b bs ih => simp [disambiguate, ih]

theorem disambiguate_not_mem_used {used bs : List String} :
    ∀ x ∈ (disambiguate used bs).1, x ∉ used := by
  induction bs generalizing used with
  | nil => simp [disambiguate]
  | cons b bs ih =>
    intro x hx
    simp only [disambiguate, List.mem_cons] at hx
    rcases hx with rfl | hx
    · by_cases hmem : b ∈ used
      · simpa only [if_pos hmem] using fresh_not_mem used b
      · simpa only [if_neg hmem] using hmem
    · intro hxu
      exact ih x hx (List.mem_cons.mpr (Or.inr hxu))

theorem disambiguate_nodup (used bs : List String) :
    (disambiguate used bs).1.Nodup := by
  induction bs generalizing used with
  | nil => simp [disambiguate]
  | cons b bs ih =>
    simp only [disambiguate]
    refine List.nodup_cons.mpr ⟨?_, ih _⟩
    intro hmem
    exact disambiguate_not_mem_used _ hmem (List.mem_cons_self _ _)

theorem disambiguate_id {used bs : List String} (hnd : bs.Nodup)
    (hout : ∀ b ∈ bs, b ∉ used) : disambiguate used bs = (bs, 0) := by
  induction bs generalizing used with
  | nil => simp [disambiguate]
  | cons b bs ih =>
    have hb : b ∉ used := hout b (List.mem_cons_self b bs)
    rcases List.nodup_cons.mp hnd with ⟨hbd, hnd'⟩
    have hout' : ∀ x ∈ bs, x ∉ b :: used := by
      intro x hx
      rw [List.mem_cons]
      push_neg
      exact ⟨fun he => hbd (he ▸ hx), hout x (List.mem_cons.mpr (Or.inr hx))⟩
    simp [disambiguate, if_neg hb, ih hnd' hout']

/-- Modelled from the spec: caller configuration of the Normalizer —
lenient coercion mode (section 4.2 step 6), the explicit timezone
normalization policy "assume UTC for naive" (section 7), and the optional
start/end clip window (section 4.2 step 5). -/
structure Config where
  lenient : Bool
  assumeNaiveUTC : Bool
  clip : Option (Timestamp × Timestamp)
deriving DecidableEq, Repr

/-- Default configuration: strict coercion, no timezone policy, no clip
window. -/
def defaultConfig : Config :=
  ⟨false, false, none⟩

/-- First timestamp of a list that occurs again later in it. -/
def firstDupOf : List Timestamp → Option Timestamp
  | [] => none
  | x :: xs => if x ∈ xs then some x else firstDupOf xs

/-- First Series carrying a duplicated timestamp, with the offending
Variable Key and timestamp (section 4.2 step 1). -/
def findDup : List Series → Option (VariableKey × Timestamp)
  | [] => none
  | s :: rest =>
    match firstDupOf s.timestamps with
    | some t => some (s.key, t)
    | none => findDup rest

/-- All timestamps across a collection of Series. -/
def allStamps (ss : List Series) : List Timestamp :=
  (ss.map Series.timestamps).flatten

/-- Mixed timezone-awareness check: true when both a naive and an aware
timestamp occur (section 4.2 step 2). -/
def mixedTz (l : List Timestamp) : Bool :=
  l.any (fun t => t.tz.isNone) && l.any (fun t => t.tz.isSome)

/-- Timezone normalization policy "assume UTC for naive": every naive
timestamp of the Series becomes aware with offset zero. -/
def Series.awareUTC (s : Series) : Series :=
  ⟨s.key, s.obs.map (fun p => (⟨p.1.time, some (p.1.tz.getD 0)⟩, p.2))⟩

/-- Series actually merged: the input as supplied, or the input with the
"assume UTC for naive" policy applied when the caller requested it. -/
def policySeries (cfg : Config) (input : List Series) : List Series :=
  if cfg.assumeNaiveUTC then input.map Series.awareUTC else input

/-- Raw cell of a Series at a timestamp: the stored value when the
timestamp is present, and an explicit missing marker when it is absent. -/
def lookupObs (s : Series) (t : Timestamp) : Option String :=
  match s.obs.find? (fun p => decide (p.1 = t)) with
  | some p => p.2
  | none => none

/-- Full-length raw column of a Series aligned to the unified index
(section 4.2 step 3): one cell per index entry, missing where the Series
has no observation. -/
def alignSeries (idx : List Timestamp) (s : Series) : List (Option String) :=
  idx.map (fun t => lookupObs s t)

/-- Row-selection mask of the clip window over an index: all rows without a
window, and exactly the in-window rows otherwise (section 4.2 step 5). -/
def clipMask : Option (Timestamp × Timestamp) → List Timestamp → List Bool
  | none, idx => List.replicate idx.length true
  | some w, idx => idx.map (fun t => tsLe w.1 t && tsLe t w.2)

/-- Keep the elements of a list whose positional mask entry is true. -/
def maskFilter {α : Type} : List Bool → List α → List α
  | true :: m, x :: xs => x :: maskFilter m xs
  | false :: m, _ :: xs => maskFilter m xs
  | _, _ => []

/-- Chronological index the merged Series are aligned to, before clipping:
the sorted deduplicated union of all their timestamps. -/
def baseIndex (cfg : Config) (input : List Series) : List Timestamp :=
  buildIndex (allStamps (policySeries cfg input))

/-- Clip mask of the configured window over the unified index. -/
def theMask (cfg : Config) (input : List Series) : List Bool :=
  clipMask cfg.clip (baseIndex cfg input)

/-- Chronological index of the output table: the unified index, clipped. -/
def okIndex (cfg : Config) (input : List Series) : List Timestamp :=
  maskFilter (theMask cfg input) (baseIndex cfg input)

/-- Disambiguated column names in supply order, together with the collision
count. -/
def namesAndCollisions (cfg : Config) (input : List Series) : List String × Nat :=
  disambiguate [] ((policySeries cfg input).map (fun s => renderParts s.key))

/-- Named, aligned, clipped raw columns of the output table, in supply
order. -/
def okNamed (cfg : Config) (input : List Series) :
    List (String × List (Option String)) :=
  (namesAndCollisions cfg input).1.zip
    ((policySeries cfg input).map
      (fun s => maskFilter (theMask cfg input) (alignSeries (baseIndex cfg input) s)))

/-- Modelled from the spec: validation and alignment phase of the
Time-Series Normalizer (section 4.2 steps 1 through 5) — duplicate
timestamps, mixed timezone-awareness and malformed identifiers abort with
the corresponding error; otherwise the unified clipped index, the named
aligned raw columns and the collision count are produced. -/
def prepare (cfg : Config) (input : List Series) :
    Except NormError (List Timestamp × List (String × List (Option String)) × Nat) :=
  match findDup input with
  | some kt => .error (.duplicateTimestamp kt.1 kt.2)
  | none =>
    if mixedTz (allStamps (policySeries cfg input)) then .error .inconsistentTimezone
    else
      match (policySeries cfg input).find? (fun s => keyBad s.key) with
      | some s => .error (.malformedIdentifier s.key)
      | none => .ok (okIndex cfg input, okNamed cfg input, (namesAndCollisions cfg input).2)

/-- True when a raw cell is present but fails numeric coercion. -/
def cellBad : Option String → Bool
  | none => false
  | some raw => (parseDec raw).isNone

/-- Lenient numeric coercion of one raw cell: missing stays missing and an
unparseable value degrades to missing; a parse failure is never turned into
a number. -/
def coerceCellL : Option String → Option DecValue
  | none => none
  | some raw => parseDec raw

/-- Lenient numeric coercion of a whole column. -/
def coerceLenient (col : List (Option String)) : List (Option DecValue) :=
  col.map coerceCellL

/-- True when some cell of the column fails numeric coercion. -/
def colBad (col : List (Option String)) : Bool :=
  col.any cellBad

/-- Row position of the first unparseable cell of a column. -/
def firstBadIdx : List (Option String) → Option Nat
  | [] => none
  | c :: rest => if cellBad c then some 0 else (firstBadIdx rest).map (fun r => r + 1)

/-- Row and column name of the first unparseable cell across the named
columns, scanned in supply order. -/
def firstBadCell : List (String × List (Option String)) → Option (Nat × String)
  | [] => none
  | nc :: rest =>
    match firstBadIdx nc.2 with
    | some r => some (r, nc.1)
    | none => firstBadCell rest

/-- Modelled from the spec: the Normalized Table (section 3) — the unified
chronological index plus one named numeric column per input Series, with
explicit missing markers. -/
structure NormalizedTable where
  index : List Timestamp
  columns : List (String × List (Option DecValue))
deriving DecidableEq, Repr

/-- Diagnostics summary returned with a Normalized Table: counts of
non-fatal name disambiguations and of columns with lenient coercion
failures (spec sections 4.2 and 6). -/
structure Diagnostics where
  collisions : Nat
  coercions : Nat
deriving DecidableEq, Repr

/-- Modelled from the spec: dtype coercion phase (section 4.2 step 6) — in
strict mode the first unparseable cell aborts with ValueCoercionError naming
its row and column; in lenient mode unparseable cells degrade to missing and
one coercion diagnostic is counted per affected column. -/
def coerceTable (lenient : Bool) (idx : List Timestamp)
    (named : List (String × List (Option String))) (ncoll : Nat) :
    Except NormError (NormalizedTable × Diagnostics) :=
  if lenient then
    .ok (⟨idx, named.map (fun p => (p.1, coerceLenient p.2))⟩,
      ⟨ncoll, named.countP (fun p => colBad p.2)⟩)
  else
    match firstBadCell named with
    | some rn => .error (.valueCoercion rn.1 rn.2)
    | none => .ok (⟨idx, named.map (fun p => (p.1, coerceLenient p.2))⟩, ⟨ncoll, 0⟩)

/-- Modelled from the spec: the Time-Series Normalizer (section 4.2) —
validates, aligns, names and coerces the input Series into one Normalized
Table plus a diagnostics summary, or aborts with the first fatal error. -/
def normalize (cfg : Config) (input : List Series) :
    Except NormError (NormalizedTable × Diagnostics) :=
  match prepare cfg input with
  | .error e => .error e
  | .ok v => coerceTable cfg.lenient v.1 v.2.1 v.2.2

/-- Rendering of a timestamp for tabular output. -/
def tsText (t : Timestamp) : String :=
  match t.tz with
  | none => decStr t.time
  | some z => decStr t.time ++ (if z < 0 then "-" ++ decStr (-z).toNat else "+" ++ decStr z.toNat)

/-- Rendering of a coerced cell for tabular output: an empty field for a
missing value. -/
def cellText : Option DecValue → String
  | none => ""
  | some v => (if v.mantissa < 0 then "-" else "") ++ decStr v.mantissa.natAbs ++
      (if v.scale = 0 then "" else "e-" ++ decStr v.scale)

/-- Modelled from the spec: tabular rendering of a Normalized Table by the
CLI layer (section 6), as rows of fields — a header row holding the fixed
index header followed by the column names, then one row per index entry
starting with the timestamp. The fixed index header "Datetime" is the one
recorded by the repository's notebook and README outputs. -/
def tableRows (t : NormalizedTable) : List (List String) :=
  ("Datetime" :: t.columns.map Prod.fst) ::
    (List.range t.index.length).map (fun j =>
      tsText ((t.index.drop j).headD ⟨0, none⟩) ::
        t.columns.map (fun c => cellText ((c.2.drop j).headD none)))

theorem maskFilter_replicate_true {α : Type} :
    ∀ (l : List α) (n : Nat), n = l.length → maskFilter (List.replicate n true) l = l := by
  intro l
  induction l with
  | nil =>
    intro n hn
    subst hn
    rfl
  | cons x xs ih =>
    intro n hn
    subst hn
    simp only [List.length_cons, List.replicate, maskFilter]
    rw [ih xs.length rfl]

theorem zip_getElem?_of {α β : Type} :
    ∀ {as : List α} {bs : List β} {i : Nat} {a : α} {b : β},
      as[i]? = some a → bs[i]? = some b → (as.zip bs)[i]? = some (a, b) := by
  intro as
  induction as with
  | nil => intro bs i a b ha; simp at ha
  | cons x xs ih =>
    intro bs i a b ha hb
    cases bs with
    | nil => simp at hb
    | cons y ys =>
      cases i with
      | zero =>
        simp only [List.getElem?_cons_zero, Option.some.injEq] at ha hb
        simp [List.zip_cons_cons, ha, hb]
      | succ j =>
        simp only [List.getElem?_cons_succ] at ha hb
        simpa [List.zip_cons_cons] using ih ha hb

theorem findDup_eq_none_iff {ss : List Series} :
    findDup ss = none ↔ ∀ s ∈ ss, firstDupOf s.timestamps = none := by
  induction ss with
  | nil => simp [findDup]
  | cons s rest ih =>
    cases hfd : firstDupOf s.timestamps with
    | some t => simp [findDup, hfd]
    | none => simp [findDup, hfd, ih]

theorem mem_allStamps {x : Timestamp} {ss : List Series} :
    x ∈ allStamps ss ↔ ∃ s ∈ ss, x ∈ s.timestamps := by
  simp only [allStamps, List.mem_flatten, List.mem_map]
  constructor
  · rintro ⟨l, ⟨s, hs, rfl⟩, hx⟩
    exact ⟨s, hs, hx⟩
  · rintro ⟨s, hs, hx⟩
    exact ⟨s.timestamps, ⟨s, hs, rfl⟩, hx⟩

theorem prepare_ok_elim {cfg : Config} {input : List Series}
    {idx : List Timestamp} {named : List (String × List (Option String))} {k : Nat}
    (h : prepare cfg input = .ok (idx, named, k)) :
    findDup input = none ∧
      mixedTz (allStamps (policySeries cfg input)) = false ∧
      (policySeries cfg input).find? (fun s => keyBad s.key) = none ∧
      idx = okIndex cfg input ∧ named = okNamed cfg input ∧
      k = (namesAndCollisions cfg input).2 := by
  unfold prepare at h
  cases hfd : findDup input with
  | some kt => rw [hfd] at h; exact absurd h (by simp)
  | none =>
    rw [hfd] at h
    by_cases hmix : mixedTz (allStamps (policySeries cfg input)) = true
    · rw [if_pos hmix] at h
      exact absurd h (by simp)
    · rw [if_neg hmix] at h
      cases hfk : (policySeries cfg input).find? (fun s => keyBad s.key) with
      | some s => rw [hfk] at h; exact absurd h (by simp)
      | none =>
        rw [hfk] at h
        simp only [Except.ok.injEq, Prod.mk.injEq] at h
        exact ⟨rfl, by simpa using hmix, rfl, h.1.symm, h.2.1.symm, h.2.2.symm⟩

theorem prepare_ok_intro {cfg : Config} {input : List Series}
    (hfd : findDup input = none)
    (hmix : mixedTz (allStamps (policySeries cfg input)) = false)
    (hfk : (policySeries cfg input).find? (fun s => keyBad s.key) = none) :
    prepare cfg input =
      .ok (okIndex cfg input, okNamed cfg input, (namesAndCollisions cfg input).2) := by
  unfold prepare
  rw [hfd, hmix, hfk]
  simp

theorem normalize_ok_elim {cfg : Config} {input : List Series}
    {t : NormalizedTable} {d : Diagnostics}
    (h : normalize cfg input = .ok (t, d)) :
    findDup input = none ∧
      mixedTz (allStamps (policySeries cfg input)) = false ∧
      (policySeries cfg input).find? (fun s => keyBad s.key) = none ∧
      t.index = okIndex cfg input ∧
      t.columns = (okNamed cfg input).map (fun p => (p.1, coerceLenient p.2)) ∧
      d.collisions = (namesAndCollisions cfg input).2 ∧
      (cfg.lenient = false →
        firstBadCell (okNamed cfg input) = none ∧ d.coercions = 0) ∧
      (cfg.lenient = true →
        d.coercions = (okNamed cfg input).countP (fun p => colBad p.2)) := by
  cases hp : prepare cfg input with
  | error e =>
    rw [normalize, hp] at h
    exact absurd h (by simp)
  | ok v =>
    rw [normalize, hp] at h
    simp only [] at h
    obtain ⟨v1, v2, v3⟩ := v
    rcases prepare_ok_elim hp with ⟨h1, h2, h3, h4, h5, h6⟩
    subst h4
    subst h5
    subst h6
    cases hl : cfg.lenient with
    | true =>
      rw [hl] at h
      unfold coerceTable at h
      rw [if_pos rfl] at h
      simp only [Except.ok.injEq, Prod.mk.injEq] at h
      rcases h with ⟨ht, hd⟩
      refine ⟨h1, h2, h3, ?_, ?_, ?_, by simp, fun _ => ?_⟩
      · rw [← ht]
      · rw [← ht]
      · rw [← hd]
      · rw [← hd]
    | false =>
      rw [hl] at h
      unfold coerceTable at h
      rw [if_neg (by simp)] at h
      cases hfb : firstBadCell (okNamed cfg input) with
      | some rn => rw [hfb] at h; exact absurd h (by simp)
      | none =>
        rw [hfb] at h
        simp only [Except.ok.injEq, Prod.mk.injEq] at h
        rcases h with ⟨ht, hd⟩
        refine ⟨h1, h2, h3, ?_, ?_, ?_, fun _ => ⟨rfl, ?_⟩, by simp⟩
        · rw [← ht]
        · rw [← ht]
        · rw [← hd]
        · rw [← hd]

theorem policySeries_length (cfg : Config) (input : List Series) :
    (policySeries cfg input).length = input.length := by
  unfold policySeries
  split <;> simp

theorem okNames_length (cfg : Config) (input : List Series) :
    (namesAndCollisions cfg input).1.length = input.length := by
  unfold namesAndCollisions
  rw [disambiguate_length, List.length_map, policySeries_length]

theorem okNamed_fst (cfg : Config) (input : List Series) :
    (okNamed cfg input).map Prod.fst = (namesAndCollisions cfg input).1 := by
  unfold okNamed
  apply List.map_fst_zip
  rw [okNames_length, List.length_map, policySeries_length]

theorem okNamed_length (cfg : Config) (input : List Series) :
    (okNamed cfg input).length = input.length := by
  unfold okNamed
  rw [List.length_zip, okNames_length, List.length_map, policySeries_length, min_self]

theorem colBad_eq_false_iff {col : List (Option String)} :
    colBad col = false ↔ ∀ c ∈ col, cellBad c = false := by
  simp [colBad, List.any_eq_false]

theorem getElem?_mem {α : Type} :
    ∀ {l : List α} {i : Nat} {a : α}, l[i]? = some a → a ∈ l := by
  intro l
  induction l with
  | nil => intro i a h; simp at h
  | cons x xs ih =>
    intro i a h
    cases i with
    | zero =>
      simp only [List.getElem?_cons_zero, Option.some.injEq] at h
      exact h ▸ List.mem_cons_self x xs
    | succ j =>
      simp only [List.getElem?_cons_succ] at h
      exact List.mem_cons.mpr (Or.inr (ih h))

theorem firstBadIdx_eq_none_iff {col : List (Option String)} :
    firstBadIdx col = none ↔ ∀ c ∈ col, cellBad c = false := by
  induction col with
  | nil => simp [firstBadIdx]
  | cons c rest ih =>
    by_cases hc : cellBad c = true
    · simp [firstBadIdx, hc]
    · simp only [Bool.not_eq_true] at hc
      simp [firstBadIdx, hc, ih]

theorem firstBadIdx_some_spec {col : List (Option String)} {r : Nat}
    (h : firstBadIdx col = some r) :
    ∃ c, col[r]? = some c ∧ cellBad c = true := by
  induction col generalizing r with
  | nil => simp [firstBadIdx] at h
  | cons c rest ih =>
    by_cases hc : cellBad c = true
    · simp only [firstBadIdx, if_pos hc, Option.some.injEq] at h
      refine ⟨c, ?_, hc⟩
      rw [← h]
      simp
    · simp only [firstBadIdx, if_neg hc] at h
      cases hr : firstBadIdx rest with
      | none => rw [hr] at h; simp at h
      | some r0 =>
        rw [hr] at h
        simp only [Option.map_some', Option.some.injEq] at h
        rcases ih hr with ⟨c0, hc0, hbad⟩
        refine ⟨c0, ?_, hbad⟩
        rw [← h]
        simpa using hc0

theorem firstBadCell_eq_none_iff {named : List (String × List (Option String))} :
    firstBadCell named = none ↔ ∀ p ∈ named, colBad p.2 = false := by
  induction named with
  | nil => simp [firstBadCell]
  | cons nc rest ih =>
    cases hfi : firstBadIdx nc.2 with
    | some r =>
      have hbad : colBad nc.2 = true := by
        rcases firstBadIdx_some_spec hfi with ⟨c, hc, hcb⟩
        exact List.any_eq_true.mpr ⟨c, getElem?_mem hc, hcb⟩
      constructor
      · intro h
        simp [firstBadCell, hfi] at h
      · intro hall
        exact absurd (hall nc (List.mem_cons_self nc rest)) (by simp [hbad])
    | none =>
      have hclean : colBad nc.2 = false :=
        colBad_eq_false_iff.mpr (firstBadIdx_eq_none_iff.mp hfi)
      simp [firstBadCell, hfi, ih, hclean]

theorem firstBadCell_some_spec {named : List (String × List (Option String))}
    {r : Nat} {n : String} (h : firstBadCell named = some (r, n)) :
    ∃ col, (n, col) ∈ named ∧ ∃ c, col[r]? = some c ∧ cellBad c = true := by
  induction named generalizing r n with
  | nil => simp [firstBadCell] at h
  | cons nc rest ih =>
    cases hfi : firstBadIdx nc.2 with
    | some r0 =>
      simp only [firstBadCell, hfi, Option.some.injEq, Prod.mk.injEq] at h
      rcases firstBadIdx_some_spec hfi with ⟨c, hc, hbad⟩
      refine ⟨nc.2, ?_, c, by rw [← h.1]; exact hc, hbad⟩
      rw [← h.2]
      exact List.mem_cons.mpr (Or.inl (by simp))
    | none =>
      simp only [firstBadCell, hfi] at h
      rcases ih h with ⟨col, hmem, hc⟩
      exact ⟨col, List.mem_cons.mpr (Or.inr hmem), hc⟩

theorem firstBadCell_isSome_of_bad {named : List (String × List (Option String))}
    (h : ∃ p ∈ named, colBad p.2 = true) :
    ∃ rn, firstBadCell named = some rn := by
  cases hfb : firstBadCell named with
  | some rn => exact ⟨rn, rfl⟩
  | none =>
    rcases h with ⟨p, hp, hbad⟩
    exact absurd hbad (by simp [firstBadCell_eq_none_iff.mp hfb p hp])

theorem awareUTC_tz_isSome {x : Timestamp} {s : Series}
    (hx : x ∈ (Series.awareUTC s).timestamps) : x.tz.isSome = true := by
  simp only [Series.awareUTC, Series.timestamps, List.map_map, List.mem_map] at hx
  rcases hx with ⟨p, _, rfl⟩
  rfl

theorem mixedTz_awareUTC_eq_false (input : List Series) :
    mixedTz (allStamps (input.map Series.awareUTC)) = false := by
  unfold mixedTz
  have hnone : (allStamps (input.map Series.awareUTC)).any (fun t => t.tz.isNone) = false := by
    rw [List.any_eq_false]
    intro x hx
    rcases mem_allStamps.mp hx with ⟨s, hs, hxs⟩
    rcases List.mem_map.mp hs with ⟨s0, _, rfl⟩
    have hsome := awareUTC_tz_isSome hxs
    intro hcon
    cases hzt : x.tz with
    | none => rw [hzt] at hsome; simp at hsome
    | some z => rw [hzt] at hcon; simp at hcon
  rw [hnone]
  simp

theorem policySeries_of_off {cfg : Config} {input : List Series}
    (hpol : cfg.assumeNaiveUTC = false) : policySeries cfg input = input := by
  unfold policySeries
  rw [hpol]
  simp

theorem okIndex_noclip {cfg : Config} {input : List Series}
    (hclip : cfg.clip = none) : okIndex cfg input = baseIndex cfg input := by
  unfold okIndex theMask
  rw [hclip]
  exact maskFilter_replicate_true _ _ rfl

/-- Example timestamp 2000-01-01 of the spec's Example 1, timezone-naive. -/
def ts1 : Timestamp :=
  ⟨20000101, none⟩

/-- Example timestamp 2000-01-02 of the spec's Example 1, timezone-naive. -/
def ts2 : Timestamp :=
  ⟨20000102, none⟩

/-- Series A of the spec's Example 1: key (USGS, 02325000, 00060), values 82
and 81 on the two days. -/
def seriesA : Series :=
  ⟨⟨"USGS", "02325000", "00060", none⟩, [(ts1, some "82"), (ts2, some "81")]⟩

/-- Series B of the spec's Example 1: key (USGS, 02325000, 00065), value
2.71 on the first day only. -/
def seriesB : Series :=
  ⟨⟨"USGS", "02325000", "00065", none⟩, [(ts1, some "2.71")]⟩

/-- Normalized Table the model produces for the spec's Example 1. -/
def ex1Table : NormalizedTable :=
  ⟨[ts1, ts2],
    [("USGS-02325000-00060", [some ⟨82, 0⟩, some ⟨81, 0⟩]),
     ("USGS-02325000-00065", [some ⟨271, 2⟩, none])]⟩

set_option maxRecDepth 10000

/-- C3: for every valid non-empty collection of input Series (merged with
the default window and timezone policy), the index of the returned
Normalized Table is the sorted deduplicated union of the timestamps of all
input Series: it is strictly ascending, a timestamp belongs to it exactly
when some input Series carries it, and re-deriving the sorted deduplicated
union from the output index reproduces that index. -/
theorem claim3_index_is_sorted_union (cfg : Config) (input : List Series)
    (t : NormalizedTable) (d : Diagnostics)
    (hne : input ≠ []) (hclip : cfg.clip = none)
    (hpol : cfg.assumeNaiveUTC = false)
    (hok : normalize cfg input = .ok (t, d)) :
    t.index = buildIndex (allStamps input) ∧
      SortedT t.index ∧
      (∀ x, x ∈ t.index ↔ ∃ s ∈ input, x ∈ s.timestamps) ∧
      buildIndex t.index = t.index := by
  rcases normalize_ok_elim hok with ⟨-, -, -, hidx, -, -, -, -⟩
  have hbase : t.index = buildIndex (allStamps input) := by
    rw [hidx, okIndex_noclip hclip]
    unfold baseIndex
    rw [policySeries_of_off hpol]
  refine ⟨hbase, ?_, ?_, ?_⟩
  · rw [hbase]
    exact sortedT_buildIndex _
  · intro x
    rw [hbase, mem_buildIndex, mem_allStamps]
  · rw [hbase]
    exact buildIndex_idem (sortedT_buildIndex _)

/-- C3 witness: the conclusion holds at the spec's Example 1 input. -/
theorem claim3_witness :
    ex1Table.index = buildIndex (allStamps [seriesA, seriesB]) ∧
      SortedT ex1Table.index ∧
      (∀ x, x ∈ ex1Table.index ↔ ∃ s ∈ [seriesA, seriesB], x ∈ s.timestamps) ∧
      buildIndex ex1Table.index = ex1Table.index :=
  claim3_index_is_sorted_union defaultConfig [seriesA, seriesB] ex1Table ⟨0, 0⟩
    (by decide) rfl rfl (by decide)

/-- C4: in a merge under the default window and timezone policy, the cell of
the i-th Series's column at an index timestamp that Series does not carry is
the explicit missing marker (never a fabricated number), and the column has
one cell per index row (no omitted rows). -/
theorem claim4_missing_is_explicit (cfg : Config) (input : List Series)
    (t : NormalizedTable) (d : Diagnostics) (i j : Nat) (s : Series)
    (n : String) (col : List (Option DecValue)) (x : Timestamp)
    (hclip : cfg.clip = none) (hpol : cfg.assumeNaiveUTC = false)
    (hok : normalize cfg input = .ok (t, d))
    (hi : input[i]? = some s)
    (hcol : t.columns[i]? = some (n, col))
    (hx : t.index[j]? = some x)
    (habs : x ∉ s.timestamps) :
    col[j]? = some none ∧ col.length = t.index.length := by
  rcases normalize_ok_elim hok with ⟨-, -, -, hidx, hcols, -, -, -⟩
  have hpolemma := @policySeries_of_off cfg input hpol
  have hidx' : t.index = baseIndex cfg input := by
    rw [hidx, okIndex_noclip hclip]
  have hmask : theMask cfg input = List.replicate (baseIndex cfg input).length true := by
    unfold theMask
    rw [hclip]
    rfl
  have halign_len : (alignSeries (baseIndex cfg input) s).length = (baseIndex cfg input).length := by
    unfold alignSeries
    rw [List.length_map]
  have hproc : maskFilter (theMask cfg input) (alignSeries (baseIndex cfg input) s) =
      alignSeries (baseIndex cfg input) s := by
    rw [hmask]
    exact maskFilter_replicate_true _ _ halign_len.symm
  have hlt : i < input.length := by
    rcases List.getElem?_eq_some_iff.mp hi with ⟨hl, -⟩
    exact hl
  have hnames_i : ∃ nm, (namesAndCollisions cfg input).1[i]? = some nm := by
    have : i < (namesAndCollisions cfg input).1.length := by
      rw [okNames_length]
      exact hlt
    exact ⟨_, List.getElem?_eq_getElem this⟩
  rcases hnames_i with ⟨nm, hnm⟩
  have hcols_i : ((policySeries cfg input).map
      (fun s => maskFilter (theMask cfg input) (alignSeries (baseIndex cfg input) s)))[i]? =
      some (maskFilter (theMask cfg input) (alignSeries (baseIndex cfg input) s)) := by
    rw [List.getElem?_map, hpolemma, hi]
    rfl
  have hnamed_i : (okNamed cfg input)[i]? =
      some (nm, maskFilter (theMask cfg input) (alignSeries (baseIndex cfg input) s)) := by
    unfold okNamed
    exact zip_getElem?_of hnm hcols_i
  have hcol' : t.columns[i]? =
      some (nm, coerceLenient (alignSeries (baseIndex cfg input) s)) := by
    rw [hcols, List.getElem?_map, hnamed_i, hproc]
    rfl
  rw [hcol'] at hcol
  have hcoleq : col = coerceLenient (alignSeries (baseIndex cfg input) s) := by
    have := Option.some.inj hcol
    exact ((Prod.mk.injEq _ _ _ _ ▸ this).2).symm
  have hlook : lookupObs s x = none := by
    unfold lookupObs
    have hfind : s.obs.find? (fun p => decide (p.1 = x)) = none := by
      rw [List.find?_eq_none]
      intro p hp hcon
      rw [decide_eq_true_eq] at hcon
      exact habs (hcon ▸ List.mem_map.mpr ⟨p, hp, rfl⟩)
    rw [hfind]
  constructor
  · rw [hcoleq]
    unfold coerceLenient alignSeries
    rw [List.getElem?_map, List.getElem?_map]
    rw [hidx'] at hx
    rw [hx]
    simp only [Option.map_some']
    rw [hlook]
    rfl
  · rw [hcoleq, hidx']
    unfold coerceLenient
    rw [List.length_map, halign_len]

/-- C4 witness: at the spec's Example 1, the cell of Series B's column at
2000-01-02 (a timestamp Series B does not carry) is the explicit missing
marker, and the column has one cell per index row. -/
theorem claim4_witness :
    ([some ⟨271, 2⟩, none] : List (Option DecValue))[1]? = some none ∧
      ([some ⟨271, 2⟩, none] : List (Option DecValue)).length = ex1Table.index.length :=
  claim4_missing_is_explicit defaultConfig [seriesA, seriesB] ex1Table ⟨0, 0⟩
    1 1 seriesB "USGS-02325000-00065" [some ⟨271, 2⟩, none] ts2
    rfl rfl (by decide) (by decide) (by decide) (by decide) (by decide)

theorem prepare_eq_tz_error_iff {cfg : Config} {input : List Series} :
    prepare cfg input = .error .inconsistentTimezone ↔
      findDup input = none ∧
        mixedTz (allStamps (policySeries cfg input)) = true := by
  cases hfd : findDup input with
  | some kt =>
    unfold prepare
    rw [hfd]
    simp
  | none =>
    unfold prepare
    rw [hfd]
    by_cases hmix : mixedTz (allStamps (policySeries cfg input)) = true
    · simp [hmix]
    · simp only [Bool.not_eq_true] at hmix
      rw [hmix]
      cases hfk : (policySeries cfg input).find? (fun s => keyBad s.key) with
      | some s => simp [hfk]
      | none => simp [hfk]

theorem coerceTable_ne_tz_error (lenient : Bool) (idx : List Timestamp)
    (named : List (String × List (Option String))) (ncoll : Nat) :
    coerceTable lenient idx named ncoll ≠ .error .inconsistentTimezone := by
  unfold coerceTable
  by_cases hl : lenient = true
  · simp [hl]
  · simp only [Bool.not_eq_true] at hl
    rw [hl]
    cases hfb : firstBadCell named with
    | some rn => simp [hfb]
    | none => simp [hfb]

theorem normalize_ne_tz_error {cfg : Config} {input : List Series}
    (hmix : mixedTz (allStamps (policySeries cfg input)) = false) :
    normalize cfg input ≠ .error .inconsistentTimezone := by
  intro hcon
  cases hp : prepare cfg input with
  | error e =>
    rw [normalize, hp] at hcon
    have he : e = .inconsistentTimezone := by simpa using hcon
    subst he
    rcases prepare_eq_tz_error_iff.mp hp with ⟨-, hm⟩
    rw [hmix] at hm
    exact absurd hm (by simp)
  | ok v =>
    rw [normalize, hp] at hcon
    simp only [] at hcon
    exact coerceTable_ne_tz_error cfg.lenient v.1 v.2.1 v.2.2 hcon

/-- C8: when the input Series mix timezone-aware and timezone-naive
timestamps (and pass the preceding duplicate-timestamp validation), the
Normalizer by default fails with InconsistentTimezone — no table is returned
and no conversion is guessed — and only a caller that explicitly requests
the "assume UTC for naive" policy avoids that failure. -/
theorem claim8_inconsistent_timezone (cfg : Config) (input : List Series)
    (hdup : findDup input = none)
    (hmix : mixedTz (allStamps input) = true) :
    (cfg.assumeNaiveUTC = false →
      normalize cfg input = .error .inconsistentTimezone) ∧
      (cfg.assumeNaiveUTC = true →
        normalize cfg input ≠ .error .inconsistentTimezone) := by
  constructor
  · intro hpol
    have hps := @policySeries_of_off cfg input hpol
    have hprep : prepare cfg input = .error .inconsistentTimezone :=
      prepare_eq_tz_error_iff.mpr ⟨hdup, by rw [hps]; exact hmix⟩
    rw [normalize, hprep]
  · intro hpol
    have hps : policySeries cfg input = input.map Series.awareUTC := by
      unfold policySeries
      rw [hpol]
      simp
    exact normalize_ne_tz_error (by rw [hps]; exact mixedTz_awareUTC_eq_false input)

/-- Mixed-timezone example input: one naive and one aware timestamp. -/
def seriesNaive : Series :=
  ⟨⟨"USGS", "1", "2", none⟩, [(⟨5, none⟩, some "1")]⟩

/-- Aware counterpart of the mixed-timezone example input. -/
def seriesAware : Series :=
  ⟨⟨"USGS", "1", "3", none⟩, [(⟨5, some 0⟩, some "1")]⟩

/-- C8 witness: at a concrete mixed-awareness input, the default
configuration fails with InconsistentTimezone and the explicit
assume-UTC-for-naive policy does not. -/
theorem claim8_witness :
    normalize defaultConfig [seriesNaive, seriesAware] =
        .error .inconsistentTimezone ∧
      normalize ⟨false, true, none⟩ [seriesNaive, seriesAware] ≠
        .error .inconsistentTimezone :=
  ⟨(claim8_inconsistent_timezone defaultConfig [seriesNaive, seriesAware]
      (by decide) (by decide)).1 rfl,
    (claim8_inconsistent_timezone ⟨false, true, none⟩ [seriesNaive, seriesAware]
      (by decide) (by decide)).2 rfl⟩

/-- C7: when some aligned column holds a raw cell that fails numeric
parsing, strict mode makes the whole normalization call fail with a
ValueCoercionError naming a row and column whose cell indeed fails to
parse, while lenient mode returns the table with exactly those cells
degraded to explicit missing values, counts one coercion diagnostic per
affected column (at least one here), and never turns an unparseable cell
into a number. -/
theorem claim7_coercion_error_or_lenient (cfg : Config) (input : List Series)
    (idx : List Timestamp) (named : List (String × List (Option String)))
    (k : Nat) (hprep : prepare cfg input = .ok (idx, named, k))
    (hbad : ∃ p ∈ named, colBad p.2 = true) :
    (cfg.lenient = false →
      ∃ r n, normalize cfg input = .error (.valueCoercion r n) ∧
        ∃ col, (n, col) ∈ named ∧ ∃ c, col[r]? = some c ∧ cellBad c = true) ∧
      (cfg.lenient = true →
        ∃ t d, normalize cfg input = .ok (t, d) ∧
          t.columns = named.map (fun p => (p.1, coerceLenient p.2)) ∧
          d.coercions = named.countP (fun p => colBad p.2) ∧
          1 ≤ d.coercions ∧
          ∀ col ∈ named.map Prod.snd, ∀ (r : Nat) (raw : String), col[r]? = some (some raw) →
            parseDec raw = none → (coerceLenient col)[r]? = some none) := by
  have hnorm : normalize cfg input = coerceTable cfg.lenient idx named k := by
    rw [normalize, hprep]
  constructor
  · intro hl
    rcases firstBadCell_isSome_of_bad hbad with ⟨rn, hfb⟩
    obtain ⟨r, n⟩ := rn
    refine ⟨r, n, ?_, firstBadCell_some_spec hfb⟩
    rw [hnorm]
    unfold coerceTable
    rw [hl, if_neg (by simp), hfb]
  · intro hl
    refine ⟨⟨idx, named.map (fun p => (p.1, coerceLenient p.2))⟩,
      ⟨k, named.countP (fun p => colBad p.2)⟩, ?_, rfl, rfl, ?_, ?_⟩
    · rw [hnorm]
      unfold coerceTable
      rw [hl, if_pos rfl]
    · rcases hbad with ⟨p, hp, hb⟩
      have hpos : 0 < named.countP (fun p => colBad p.2) :=
        List.countP_pos_iff.mpr ⟨p, hp, hb⟩
      exact hpos
    · intro col hcol r raw hr hparse
      unfold coerceLenient
      rw [List.getElem?_map, hr]
      simp [coerceCellL, hparse]

/-- Series of the spec's Example 3: raw value "N/A" in a numeric column. -/
def series3 : Series :=
  ⟨⟨"USGS", "02325000", "00060", none⟩, [(ts1, some "82"), (ts2, some "N/A")]⟩

/-- Named aligned raw columns the validation phase produces for Example 3. -/
def named3 : List (String × List (Option String)) :=
  [("USGS-02325000-00060", [some "82", some "N/A"])]

/-- C7 witness: at the spec's Example 3, strict mode fails with a
ValueCoercionError at an unparseable cell and lenient mode degrades that
cell to missing with one coercion diagnostic. -/
theorem claim7_witness :
    (∃ r n, normalize defaultConfig [series3] = .error (.valueCoercion r n) ∧
        ∃ col, (n, col) ∈ named3 ∧ ∃ c, col[r]? = some c ∧ cellBad c = true) ∧
      (∃ t d, normalize ⟨true, false, none⟩ [series3] = .ok (t, d) ∧
        t.columns = named3.map (fun p => (p.1, coerceLenient p.2)) ∧
        d.coercions = named3.countP (fun p => colBad p.2) ∧
        1 ≤ d.coercions ∧
        ∀ col ∈ named3.map Prod.snd, ∀ (r : Nat) (raw : String), col[r]? = some (some raw) →
          parseDec raw = none → (coerceLenient col)[r]? = some none) :=
  ⟨(claim7_coercion_error_or_lenient defaultConfig [series3] [ts1, ts2] named3 0
      (by decide) (by decide)).1 rfl,
    (claim7_coercion_error_or_lenient ⟨true, false, none⟩ [series3] [ts1, ts2] named3 0
      (by decide) (by decide)).2 rfl⟩

/-- First Series of the spec's Example 2. -/
def series2a : Series :=
  ⟨⟨"USGS", "02325000", "00060", none⟩, [(ts1, some "82")]⟩

/-- Second Series of the spec's Example 2: identical Variable Key. -/
def series2b : Series :=
  ⟨⟨"USGS", "02325000", "00060", none⟩, [(ts1, some "79")]⟩

/-- C6: in every Normalized Table the rendered column names are pairwise
distinct and there is one column per supplied Series (no column is
overwritten or dropped); concretely, at the spec's Example 2 the two
identically keyed Series both materialize, the second under the
numeric-suffixed name, and the diagnostics count one collision. -/
theorem claim6_collision_disambiguation :
    (∀ (cfg : Config) (input : List Series) (t : NormalizedTable)
        (d : Diagnostics), normalize cfg input = .ok (t, d) →
      (t.columns.map Prod.fst).Nodup ∧ t.columns.length = input.length) ∧
      normalize defaultConfig [series2a, series2b] =
        .ok (⟨[ts1], [("USGS-02325000-00060", [some ⟨82, 0⟩]),
          ("USGS-02325000-00060_1", [some ⟨79, 0⟩])]⟩, ⟨1, 0⟩) := by
  constructor
  · intro cfg input t d hok
    rcases normalize_ok_elim hok with ⟨-, -, -, -, hcols, -, -, -⟩
    constructor
    · rw [hcols, List.map_map]
      have hfst : (Prod.fst ∘ fun p : String × List (Option String) =>
          (p.1, coerceLenient p.2)) = Prod.fst := by
        funext p
        rfl
      rw [hfst, okNamed_fst]
      exact disambiguate_nodup _ _
    · rw [hcols, List.length_map, okNamed_length]
  · decide

/-- C6 witness: the uniqueness and column-count conclusion instantiated at
the spec's Example 2. -/
theorem claim6_witness :
    ((⟨[ts1], [("USGS-02325000-00060", [some ⟨82, 0⟩]),
        ("USGS-02325000-00060_1", [some ⟨79, 0⟩])]⟩ : NormalizedTable).columns.map
          Prod.fst).Nodup ∧
      (⟨[ts1], [("USGS-02325000-00060", [some ⟨82, 0⟩]),
        ("USGS-02325000-00060_1", [some ⟨79, 0⟩])]⟩ : NormalizedTable).columns.length =
        [series2a, series2b].length :=
  claim6_collision_disambiguation.1 defaultConfig [series2a, series2b] _ ⟨1, 0⟩
    (by decide)

/-- Raw parts of a Variable Key in the fixed order, before empty parts are
dropped. -/
def rawParts (k : VariableKey) : List String :=
  [k.source, k.site_id, k.variable_code] ++ k.statistic_code.toList

theorem strHas_ne_empty {p : String} (h : strHas p '-' = true) :
    p.isEmpty = false := by
  rcases List.any_eq_true.mp h with ⟨c, hc, -⟩
  by_contra hcon
  simp only [Bool.not_eq_false] at hcon
  rw [(String.isEmpty_iff p).mp hcon] at hc
  simp at hc

theorem keyBad_iff {k : VariableKey} :
    keyBad k = true ↔ ∃ p ∈ rawParts k, strHas p '-' = true := by
  unfold keyBad keyParts
  rw [List.any_eq_true]
  constructor
  · rintro ⟨p, hp, hbad⟩
    exact ⟨p, (List.mem_filter.mp hp).1, hbad⟩
  · rintro ⟨p, hp, hbad⟩
    refine ⟨p, List.mem_filter.mpr ⟨hp, ?_⟩, hbad⟩
    rw [strHas_ne_empty hbad]
    rfl

/-- C5: the Column Namer fails with MalformedIdentifier exactly on Variable
Keys with a part containing the reserved delimiter — any key with such a
part is rejected, and any key whose parts are all delimiter-free is named
without a MalformedIdentifier error. -/
theorem claim5_reserved_delimiter (k : VariableKey) :
    ((∃ p ∈ rawParts k, strHas p '-' = true) →
      renderName k = .error (.malformedIdentifier k)) ∧
      ((∀ p ∈ rawParts k, strHas p '-' = false) →
        renderName k = .ok (renderParts k)) := by
  constructor
  · intro hex
    unfold renderName
    rw [if_pos (keyBad_iff.mpr hex)]
  · intro hall
    unfold renderName
    rw [if_neg ?_]
    intro hcon
    rcases keyBad_iff.mp hcon with ⟨p, hp, hbad⟩
    rw [hall p hp] at hbad
    exact absurd hbad (by simp)

/-- C5 witness: a key with a delimiter inside a part is rejected and the
delimiter-free coops key of the repository's README example is named. -/
theorem claim5_witness :
    renderName ⟨"a-b", "s", "v", none⟩ =
        .error (.malformedIdentifier ⟨"a-b", "s", "v", none⟩) ∧
      renderName ⟨"NOS", "8720219", "water_level", some "m"⟩ =
        .ok (renderParts ⟨"NOS", "8720219", "water_level", some "m"⟩) :=
  ⟨(claim5_reserved_delimiter ⟨"a-b", "s", "v", none⟩).1 (by decide),
    (claim5_reserved_delimiter ⟨"NOS", "8720219", "water_level", some "m"⟩).2
      (by decide)⟩

/-- C2 counterexample: the Variable Key (a-b, s, v) has non-empty parts,
yet the Column Namer does not return the joined name — it fails with
MalformedIdentifier because the first part contains the delimiter. -/
theorem claim2_counterexample :
    (("a-b" : String) ≠ "" ∧ ("s" : String) ≠ "" ∧ ("v" : String) ≠ "") ∧
      renderName ⟨"a-b", "s", "v", none⟩ ≠
        .ok (String.intercalate "-" ["a-b", "s", "v"]) ∧
      renderName ⟨"a-b", "s", "v", none⟩ =
        .error (.malformedIdentifier ⟨"a-b", "s", "v", none⟩) := by
  decide

/-- C2 (amended): for every Variable Key whose parts are non-empty and
contain no delimiter character, the Column Namer returns exactly the parts
joined with the fixed delimiter in the fixed order — source prefix, site
id, variable code, then statistic code when present — with nothing added
or removed. -/
theorem claim2_join_parts (k : VariableKey)
    (h1 : k.source ≠ "") (h2 : k.site_id ≠ "") (h3 : k.variable_code ≠ "")
    (h4 : ∀ p ∈ k.statistic_code.toList, p ≠ "")
    (h5 : ∀ p ∈ rawParts k, strHas p '-' = false) :
    renderName k = .ok (String.intercalate "-" (rawParts k)) := by
  have hparts : keyParts k = rawParts k := by
    unfold keyParts
    apply List.filter_eq_self.mpr
    intro p hp
    have hne : p ≠ "" := by
      rcases List.mem_append.mp hp with hp' | hp'
      · rcases List.mem_cons.mp hp' with rfl | hp''
        · exact h1
        · rcases List.mem_cons.mp hp'' with rfl | hp'''
          · exact h2
          · rcases List.mem_cons.mp hp''' with rfl | hp''''
            · exact h3
            · exact absurd hp'''' (by simp)
      · exact h4 p hp'
    have : p.isEmpty = false := by
      by_contra hcon
      simp only [Bool.not_eq_false] at hcon
      exact hne ((String.isEmpty_iff p).mp hcon)
    rw [this]
    rfl
  have hbadf : keyBad k = false := by
    by_contra hcon
    simp only [Bool.not_eq_false] at hcon
    rcases keyBad_iff.mp hcon with ⟨p, hp, hbad⟩
    rw [h5 p hp] at hbad
    exact absurd hbad (by simp)
  unfold renderName
  rw [if_neg (by simp [hbadf]), renderParts, hparts]

/-- C2 witness: the amended statement instantiated at the coops key of the
repository's README example, including a statistic code. -/
theorem claim2_witness :
    renderName ⟨"NOS", "8720219", "water_level", some "m"⟩ =
      .ok (String.intercalate "-" (rawParts ⟨"NOS", "8720219", "water_level", some "m"⟩)) :=
  claim2_join_parts ⟨"NOS", "8720219", "water_level", some "m"⟩
    (by decide) (by decide) (by decide) (by decide) (by decide)

/-- C1 counterexample: at the spec's Example 1 input the Normalizer returns
the table with hyphen-delimited column names (the delimiter the repository's
recorded outputs use), not the underscore-delimited names the claim states. -/
theorem claim1_counterexample :
    normalize defaultConfig [seriesA, seriesB] = .ok (ex1Table, ⟨0, 0⟩) ∧
      ex1Table.columns.map Prod.fst ≠
        ["USGS_02325000_00060", "USGS_02325000_00065"] ∧
      "USGS_02325000_00060" ∉ ex1Table.columns.map Prod.fst := by
  decide

/-- C1 (amended): for the two input Series of the spec's Example 1 the
Normalizer returns the table indexed exactly by the two days, with column
USGS-02325000-00060 holding 82 and 81 and column USGS-02325000-00065
holding 2.71 and an explicit missing value, and no diagnostics. -/
theorem claim1_example_one :
    normalize defaultConfig [seriesA, seriesB] =
      .ok (⟨[ts1, ts2],
        [("USGS-02325000-00060", [some ⟨82, 0⟩, some ⟨81, 0⟩]),
         ("USGS-02325000-00065", [some ⟨271, 2⟩, none])]⟩, ⟨0, 0⟩) := by
  decide

theorem drop_headD_of_getElem? {α : Type} (d : α) :
    ∀ {l : List α} {j : Nat} {x : α}, l[j]? = some x → (l.drop j).headD d = x := by
  intro l
  induction l with
  | nil =>
    intro j x h
    simp at h
  | cons a as ih =>
    intro j x h
    cases j with
    | zero =>
      simp only [List.getElem?_cons_zero, Option.some.injEq] at h
      simp [h]
    | succ i =>
      simp only [List.getElem?_cons_succ] at h
      simpa [List.drop_succ_cons] using ih h

/-- C10: every table the Normalizer returns renders with the timestamp
index as the first column under the fixed header name "Datetime": the
header row is "Datetime" followed by the column names, there is one data
row per index entry, and each data row starts with its timestamp. -/
theorem claim10_datetime_header (cfg : Config) (input : List Series)
    (t : NormalizedTable) (d : Diagnostics)
    (hok : normalize cfg input = .ok (t, d)) :
    (tableRows t).headD [] = "Datetime" :: t.columns.map Prod.fst ∧
      (tableRows t).length = t.index.length + 1 ∧
      ∀ (j : Nat) (x : Timestamp), t.index[j]? = some x →
        ∃ rest, (tableRows t)[j + 1]? = some (tsText x :: rest) := by
  refine ⟨rfl, ?_, ?_⟩
  · unfold tableRows
    simp
  · intro j x hx
    have hj : j < t.index.length := by
      rcases List.getElem?_eq_some_iff.mp hx with ⟨h, -⟩
      exact h
    refine ⟨t.columns.map (fun c => cellText ((c.2.drop j).headD none)), ?_⟩
    unfold tableRows
    rw [List.getElem?_cons_succ, List.getElem?_map, List.getElem?_range hj]
    simp only [Option.map_some']
    rw [drop_headD_of_getElem? _ hx]

/-- C10 witness: the rendering conclusion instantiated at the table of the
spec's Example 1. -/
theorem claim10_witness :
    (tableRows ex1Table).headD [] = "Datetime" :: ex1Table.columns.map Prod.fst ∧
      (tableRows ex1Table).length = ex1Table.index.length + 1 ∧
      ∀ (j : Nat) (x : Timestamp), ex1Table.index[j]? = some x →
        ∃ rest, (tableRows ex1Table)[j + 1]? = some (tsText x :: rest) :=
  claim10_datetime_header defaultConfig [seriesA, seriesB] ex1Table ⟨0, 0⟩ (by decide)

theorem any_eq_of_perm {α : Type} {l₁ l₂ : List α} (h : l₁.Perm l₂)
    (p : α → Bool) : l₁.any p = l₂.any p := by
  cases hb : l₂.any p
  · rw [List.any_eq_false] at hb ⊢
    intro x hx
    exact hb x (h.mem_iff.mp hx)
  · rw [List.any_eq_true] at hb ⊢
    rcases hb with ⟨x, hx, hpx⟩
    exact ⟨x, h.mem_iff.mpr hx, hpx⟩

theorem policySeries_perm {cfg : Config} {input input' : List Series}
    (h : input.Perm input') :
    (policySeries cfg input).Perm (policySeries cfg input') := by
  unfold policySeries
  split
  · exact h.map Series.awareUTC
  · exact h

theorem mixedTz_eq_of_perm {l₁ l₂ : List Timestamp} (h : l₁.Perm l₂) :
    mixedTz l₁ = mixedTz l₂ := by
  unfold mixedTz
  rw [any_eq_of_perm h, any_eq_of_perm h]

theorem baseNames_policy (cfg : Config) (input : List Series) :
    (policySeries cfg input).map (fun s => renderParts s.key) =
      input.map (fun s => renderParts s.key) := by
  unfold policySeries
  split
  · rw [List.map_map]
    rfl
  · rfl

theorem namesAndCollisions_of_nodup {cfg : Config} {input : List Series}
    (hnd : (input.map (fun s => renderParts s.key)).Nodup) :
    namesAndCollisions cfg input =
      ((policySeries cfg input).map (fun s => renderParts s.key), 0) := by
  unfold namesAndCollisions
  apply disambiguate_id
  · rw [baseNames_policy]
    exact hnd
  · simp

theorem okNamed_eq_map_of_nodup {cfg : Config} {input : List Series}
    (hnd : (input.map (fun s => renderParts s.key)).Nodup) :
    okNamed cfg input = (policySeries cfg input).map
      (fun s => (renderParts s.key,
        maskFilter (theMask cfg input) (alignSeries (baseIndex cfg input) s))) := by
  unfold okNamed
  rw [namesAndCollisions_of_nodup hnd]
  exact List.zip_map' _ _ _

/-- C9: normalizing a permutation of a collection of Series whose rendered
column names are pairwise distinct succeeds exactly when normalizing the
collection does, with the same index, the same diagnostics, and the same
named columns (hence cells) up to the permutation of supply order. -/
theorem claim9_order_independence (cfg : Config) (input input' : List Series)
    (t : NormalizedTable) (d : Diagnostics)
    (hperm : input.Perm input')
    (hnames : (input.map (fun s => renderParts s.key)).Nodup)
    (hok : normalize cfg input = .ok (t, d)) :
    ∃ t', normalize cfg input' = .ok (t', d) ∧
      t'.index = t.index ∧ t'.columns.Perm t.columns := by
  have hps : (policySeries cfg input).Perm (policySeries cfg input') :=
    policySeries_perm hperm
  have hstamps : (allStamps (policySeries cfg input)).Perm
      (allStamps (policySeries cfg input')) :=
    (hps.map Series.timestamps).flatten
  have hbase : baseIndex cfg input' = baseIndex cfg input :=
    (buildIndex_perm hstamps).symm
  have hmask : theMask cfg input' = theMask cfg input := by
    unfold theMask
    rw [hbase]
  have hoki : okIndex cfg input' = okIndex cfg input := by
    unfold okIndex
    rw [hbase, hmask]
  rcases normalize_ok_elim hok with
    ⟨hdup, hmix, hfind, ht_idx, ht_cols, hd_coll, hstrict, hlenient⟩
  have hnames' : (input'.map (fun s => renderParts s.key)).Nodup :=
    ((hperm.map (fun s => renderParts s.key)).nodup_iff).mp hnames
  have hdup' : findDup input' = none := by
    rw [findDup_eq_none_iff] at hdup ⊢
    intro s hs
    exact hdup s (hperm.mem_iff.mpr hs)
  have hmix' : mixedTz (allStamps (policySeries cfg input')) = false := by
    rw [← mixedTz_eq_of_perm hstamps]
    exact hmix
  have hfind' : (policySeries cfg input').find? (fun s => keyBad s.key) = none := by
    rw [List.find?_eq_none] at hfind ⊢
    intro s hs
    exact hfind s (hps.mem_iff.mpr hs)
  have hprep' := @prepare_ok_intro cfg input' hdup' hmix' hfind'
  have hnamed : okNamed cfg input' = (policySeries cfg input').map
      (fun s => (renderParts s.key,
        maskFilter (theMask cfg input) (alignSeries (baseIndex cfg input) s))) := by
    rw [okNamed_eq_map_of_nodup hnames', hmask, hbase]
  have hnamed0 : okNamed cfg input = (policySeries cfg input).map
      (fun s => (renderParts s.key,
        maskFilter (theMask cfg input) (alignSeries (baseIndex cfg input) s))) :=
    okNamed_eq_map_of_nodup hnames
  have hnperm : (okNamed cfg input').Perm (okNamed cfg input) := by
    rw [hnamed, hnamed0]
    exact (hps.map _).symm
  have hncoll : (namesAndCollisions cfg input).2 = 0 := by
    rw [namesAndCollisions_of_nodup hnames]
  have hncoll' : (namesAndCollisions cfg input').2 = 0 := by
    rw [namesAndCollisions_of_nodup hnames']
  have hnorm' : normalize cfg input' =
      coerceTable cfg.lenient (okIndex cfg input') (okNamed cfg input')
        (namesAndCollisions cfg input').2 := by
    rw [normalize, hprep']
  obtain ⟨dc, dx⟩ := d
  simp only at hd_coll
  cases hl : cfg.lenient with
  | true =>
    refine ⟨⟨okIndex cfg input',
      (okNamed cfg input').map (fun p => (p.1, coerceLenient p.2))⟩, ?_, ?_, ?_⟩
    · rw [hnorm', hl]
      unfold coerceTable
      rw [if_pos rfl, hncoll']
      have hcount : (okNamed cfg input').countP (fun p => colBad p.2) =
          (okNamed cfg input).countP (fun p => colBad p.2) :=
        hnperm.countP_eq _
      have hdx : dx = (okNamed cfg input).countP (fun p => colBad p.2) := by
        simpa using hlenient hl
      rw [hcount, ← hdx, hd_coll, hncoll]
    · simpa using ht_idx ▸ hoki
    · simp only
      rw [ht_cols]
      exact hnperm.map _
  | false =>
    have hfb : firstBadCell (okNamed cfg input) = none := (hstrict hl).1
    have hdx : dx = 0 := by simpa using (hstrict hl).2
    have hfb' : firstBadCell (okNamed cfg input') = none := by
      rw [firstBadCell_eq_none_iff] at hfb ⊢
      intro p hp
      exact hfb p (hnperm.mem_iff.mp hp)
    refine ⟨⟨okIndex cfg input',
      (okNamed cfg input').map (fun p => (p.1, coerceLenient p.2))⟩, ?_, ?_, ?_⟩
    · rw [hnorm', hl]
      unfold coerceTable
      rw [if_neg (by simp), hfb', hncoll', hd_coll, hncoll, hdx]
    · simpa using ht_idx ▸ hoki
    · simp only
      rw [ht_cols]
      exact hnperm.map _

/-- C9 witness: swapping the two Series of the spec's Example 1 yields the
same index, diagnostics and column set. -/
theorem claim9_witness :
    ∃ t', normalize defaultConfig [seriesB, seriesA] = .ok (t', ⟨0, 0⟩) ∧
      t'.index = ex1Table.index ∧ t'.columns.Perm ex1Table.columns :=
  claim9_order_independence defaultConfig [seriesA, seriesB] [seriesB, seriesA]
    ex1Table ⟨0, 0⟩ (List.Perm.swap seriesB seriesA []) (by decide) (by decide)

end Tsget
